import Mathlib

/-!
Formal model of the free-list allocator in `src/kernel/src/allocator.rs`.

The allocator keeps a singly linked list of `FreeSegment` headers stored in
the managed memory itself, ordered by ascending address.  We model a list
node as a record holding the header's address (`addr`, the value of the
`*mut FreeSegment` pointer) and its `size` field; the `next_free` pointer
chain of the source is represented by the order of the Lean list, and the
null pointer terminating the chain corresponds to the end of the list.
Addresses are natural numbers; where the source performs pointer arithmetic
that can wrap around the 64-bit address space the model subtracts modulo
`2 ^ 64` (`wsub`); elsewhere the theorems carry explicit bounds hypotheses
under which the machine arithmetic is exact.
-/

/-- Byte count of `size_of::<FreeSegment>() = size_of::<UsedSegment>()` on
the x86-64 target: two 8-byte fields in a `repr(C)` struct, an equality the
source asserts at the start of `init`. -/
def headerSize : Nat := 16

/-- Wrap-around modulus of 64-bit machine arithmetic. -/
def W : Nat := 2 ^ 64

/-- Wrapping subtraction modulo `2 ^ 64`: the value produced by pointer
subtraction on the machine when the mathematical difference is negative. -/
def wsub (a b : Nat) : Nat := (a + (W - b % W)) % W

/-- Header of a segment of unused memory (`struct FreeSegment`): `addr` is
the address where the header lives, `size` its size field (bytes of free
space after the header, excluding the header itself).  The `next_free`
link is represented by list order in this model. -/
structure FreeSegment where
  addr : Nat
  size : Nat
deriving DecidableEq, Repr

/-- Model of `FreeSegment::get_end`: address of `self` + `size_of::<Self>()`
+ `self.size`. -/
def FreeSegment.get_end (s : FreeSegment) : Nat := s.addr + headerSize + s.size

/-- Header trailing an allocation (`struct UsedSegment`): the originally
requested size and the bytes of padding inserted to satisfy alignment. -/
structure UsedSegment where
  size : Nat
  align_padding : Nat
deriving DecidableEq, Repr

/-- Model of `UsedSegment::whole_size`: data + header + padding bytes. -/
def UsedSegment.whole_size (u : UsedSegment) : Nat :=
  u.size + headerSize + u.align_padding

/-- Fit test from the loop body of `find_last_big_enough` (allocator.rs
lines 244-253): compute the hypothetical tail-allocation carve start and
compare it against the segment end, exactly as the source condition
`segment_start < (*cursor).get_end()` does.  Pointer subtraction wraps. -/
def find_fit (seg : FreeSegment) (size align : Nat) : Bool :=
  let segment_end := seg.get_end % W
  let data_start := wsub segment_end size
  let padding_size := data_start % align
  let segment_start := wsub data_start (padding_size + headerSize)
  decide (segment_start < segment_end)

/-- Model of `find_last_big_enough` (allocator.rs lines 237-263): walk the
list from head to tail keeping the last node that passes the fit test;
`none` models returning `None`. -/
def find_last_big_enough (l : List FreeSegment) (size align : Nat) :
    Option FreeSegment :=
  l.foldl (fun last cursor =>
    if find_fit cursor size align then some cursor else last) none

/-- Result of `write_used_segment`: the returned data pointer, the address
at which the `UsedSegment` header is written, the header value, and the
shrunk `FreeSegment` (which the source updates in place through the
`free_segment` pointer). -/
structure WriteResult where
  dataStart : Nat
  headerAddr : Nat
  used : UsedSegment
  shrunk : FreeSegment
deriving DecidableEq, Repr

/-- Model of `write_used_segment` (allocator.rs lines 269-291).  The
subtractions are exact for any carve that fits inside the segment; the
theorems below restrict to that situation where it matters. -/
def write_used_segment (seg : FreeSegment) (size align : Nat) : WriteResult :=
  let headerStart0 := seg.get_end - headerSize
  let padding_size := (headerStart0 - size) % align
  let headerStart := headerStart0 - padding_size
  let dataStart := headerStart - size
  let used : UsedSegment := ⟨size, padding_size⟩
  ⟨dataStart, headerStart, used, ⟨seg.addr, seg.size - used.whole_size⟩⟩

/-- Result of a successful `alloc`: data pointer, used-header address and
value, and the free list after the in-place shrink of the chosen node. -/
structure AllocResult where
  ptr : Nat
  headerAddr : Nat
  used : UsedSegment
  segs : List FreeSegment
deriving DecidableEq, Repr

/-- Model of `GlobalAlloc::alloc` (allocator.rs lines 294-301): find the
last big-enough segment and carve from it; `none` models the
`panic!("No free memory found.")` (OutOfMemory) path.  The source's store
through the chosen segment pointer becomes an update of the node carrying
that address. -/
def alloc (l : List FreeSegment) (size align : Nat) : Option AllocResult :=
  match find_last_big_enough l size align with
  | none => none
  | some seg =>
    let w := write_used_segment seg size align
    some ⟨w.dataStart, w.headerAddr, w.used,
      l.map fun s => if s.addr = seg.addr then w.shrunk else s⟩

/-- Model of `insert_new_segment` (allocator.rs lines 217-235): at each
node the source asserts `cursor < new_segment` (model: `none` on a failed
assert, a fatal condition), splices the new node when `next` is null or
starts above it, and otherwise advances; when the list is empty the new
node becomes the stored head. -/
def insert_new_segment : List FreeSegment → FreeSegment → Option (List FreeSegment)
  | [], nw => some [nw]
  | c :: rest, nw =>
    if c.addr < nw.addr then
      match rest with
      | [] => some [c, nw]
      | n :: rest' =>
        if nw.addr < n.addr then some (c :: nw :: n :: rest')
        else (insert_new_segment (n :: rest') nw).map fun r => c :: r
    else none

/-- Cursor loop of `clean_free_segment_list` (allocator.rs lines 197-215)
with the node under the cursor passed explicitly: while the node's computed
end equals its successor's address, absorb the successor (sum of the sizes
plus one header) and stay at the same node; otherwise advance. -/
def cleanFrom : FreeSegment → List FreeSegment → List FreeSegment
  | a, [] => [a]
  | a, b :: rest =>
    if a.get_end = b.addr then
      cleanFrom ⟨a.addr, a.size + headerSize + b.size⟩ rest
    else
      a :: cleanFrom b rest

/-- Model of `clean_free_segment_list` (allocator.rs lines 197-215). -/
def clean_free_segment_list : List FreeSegment → List FreeSegment
  | [] => []
  | a :: rest => cleanFrom a rest

/-- Model of `GlobalAlloc::dealloc` (allocator.rs lines 303-316): read the
`UsedSegment` stored at `ptr + size` (`usedAt` models that read from
memory), write a `FreeSegment` of size `used.size + used.align_padding` at
`ptr`, insert it in address order, then run the coalescing pass on the
resulting list; `none` models a failed insert assert. -/
def dealloc (usedAt : Nat → UsedSegment) (l : List FreeSegment)
    (ptr size : Nat) : Option (List FreeSegment) :=
  let u := usedAt (ptr + size)
  let newFree : FreeSegment := ⟨ptr, u.size + u.align_padding⟩
  (insert_new_segment l newFree).map clean_free_segment_list

/-- Allocate then immediately free through the allocator; the used header
written by the allocation is available at its address for dealloc's read,
all other addresses read as a dummy header. -/
def allocThenFree (l : List FreeSegment) (size align : Nat) :
    Option (List FreeSegment) :=
  match alloc l size align with
  | none => none
  | some out =>
    dealloc (fun a => if a = out.headerAddr then out.used else ⟨0, 0⟩)
      out.segs out.ptr size

/-- Total free bytes recorded in the list (sum of the `size` fields). -/
def totalFree (l : List FreeSegment) : Nat := (l.map FreeSegment.size).sum

/-- Size of the largest free segment of the list. -/
def largestFreeSize (l : List FreeSegment) : Nat :=
  (l.map FreeSegment.size).foldr max 0

/-- Kinds of firmware memory-map regions (from the `bootloader_api` crate
used by `init`); the allocator only distinguishes `Usable` from the rest. -/
inductive MemoryRegionKind where
  | Usable
  | Bootloader
  | UnknownUefi
  | UnknownBios
deriving DecidableEq, Repr

/-- One firmware memory-map descriptor: `start`, `end` (named `end_` here
because `end` is reserved) and `kind`. -/
structure MemoryRegion where
  start : Nat
  end_ : Nat
  kind : MemoryRegionKind
deriving DecidableEq, Repr

/-- Region loop of `init` (allocator.rs lines 113-162): skip a region whose
kind is not `Usable`; skip a region with `end <= kernel_start + kernel_len`
(the source's kernel-collision test); for every remaining region write a
`FreeSegment` header at `start + physical_memory_offset` with size
`(end - start) - size_of::<FreeSegment>()` and link it at the tail of the
list under construction (tail linking is the list append order here). -/
def buildSegments : List MemoryRegion → Nat → Nat → Nat → List FreeSegment
  | [], _, _, _ => []
  | r :: rest, ks, kl, off =>
    if r.kind ≠ MemoryRegionKind.Usable then buildSegments rest ks kl off
    else if r.end_ ≤ ks + kl then buildSegments rest ks kl off
    else ⟨r.start + off, (r.end_ - r.start) - headerSize⟩ ::
      buildSegments rest ks kl off

/-- Model of `init` (allocator.rs lines 85-172): build the list from the
region loop, then enforce the final `assert!((*head).next_free.is_null())`,
which together with the null-head dereference it performs requires exactly
one accepted region; `none` models the fatal outcomes (the in-loop
tail-order assert can only fail in runs that already die here). -/
def init (regions : List MemoryRegion) (ks kl off : Nat) :
    Option (List FreeSegment) :=
  match buildSegments regions ks kl off with
  | [s] => some [s]
  | _ => none

/-- Modelled from the spec, for comparison with the source's fit test: a
segment fits a request when the tail-allocation carve start (segment end,
minus the used-segment header size, minus the alignment padding of the
carve of 4.3, minus the requested size) does not fall before the segment's
own start. -/
def specFits (seg : FreeSegment) (size align : Nat) : Bool :=
  let headerStart0 := seg.get_end - headerSize
  let padding_size := (headerStart0 - size) % align
  let carveStart := headerStart0 - padding_size - size
  decide (seg.addr ≤ carveStart)

/-- Modelled from the spec, for comparison with the source's region filter:
a region is skipped when its kind is not usable or it overlaps the
kernel's reserved range, the half-open interval from kernel_start to
kernel_start + kernel_len. -/
def specSkipsRegion (r : MemoryRegion) (ks kl : Nat) : Bool :=
  !(r.kind = MemoryRegionKind.Usable : Bool) ||
    (decide (r.start < ks + kl) && decide (ks < r.end_))

/-- List-shape invariant of the free list: every earlier segment's byte
range, header included, ends no later than every later segment's header
address.  With `addr < get_end` this gives strict ascending address order
and pairwise disjoint byte ranges; null termination and acyclicity are
structural in the list model. -/
def FreeListInv (l : List FreeSegment) : Prop :=
  l.Pairwise fun a b => a.get_end ≤ b.addr

instance (l : List FreeSegment) : Decidable (FreeListInv l) :=
  List.instDecidablePairwise l

example : FreeListInv [(⟨0, 8⟩ : FreeSegment), ⟨100, 8⟩] := by decide

theorem wsub_eq_sub {a b : Nat} (hba : b ≤ a) (ha : a < W) : wsub a b = a - b := by
  unfold wsub
  have hb : b % W = b := Nat.mod_eq_of_lt (lt_of_le_of_lt hba ha)
  rw [hb]
  have h1 : a + (W - b) = (a - b) + W := by omega
  rw [h1, Nat.add_mod_right]
  exact Nat.mod_eq_of_lt (by omega)

theorem FreeSegment.addr_lt_get_end (s : FreeSegment) : s.addr < s.get_end := by
  unfold FreeSegment.get_end headerSize
  omega

theorem insert_cons_nil (c nw : FreeSegment) :
    insert_new_segment [c] nw =
      if c.addr < nw.addr then some [c, nw] else none := by
  by_cases hc : c.addr < nw.addr <;> simp [insert_new_segment, hc]

theorem insert_cons_cons (c n : FreeSegment) (rest' : List FreeSegment)
    (nw : FreeSegment) :
    insert_new_segment (c :: n :: rest') nw =
      if c.addr < nw.addr then
        if nw.addr < n.addr then some (c :: nw :: n :: rest')
        else (insert_new_segment (n :: rest') nw).map fun r => c :: r
      else none := by
  by_cases hc : c.addr < nw.addr <;> by_cases hn : nw.addr < n.addr <;>
    simp [insert_new_segment, hc, hn]

theorem insert_mem : ∀ (l : List FreeSegment) (nw : FreeSegment)
    (r : List FreeSegment), insert_new_segment l nw = some r →
    ∀ x ∈ r, x = nw ∨ x ∈ l := by
  intro l
  induction l with
  | nil =>
    intro nw r h x hx
    simp only [insert_new_segment, Option.some.injEq] at h
    subst h
    simp only [List.mem_singleton] at hx
    exact Or.inl hx
  | cons c rest ih =>
    intro nw r h x hx
    cases rest with
    | nil =>
      rw [insert_cons_nil] at h
      by_cases hc : c.addr < nw.addr
      · rw [if_pos hc] at h
        simp only [Option.some.injEq] at h
        subst h
        simp only [List.mem_cons, List.not_mem_nil, or_false] at hx
        rcases hx with h1 | h1
        · exact Or.inr (by simp [h1])
        · exact Or.inl h1
      · rw [if_neg hc] at h
        cases h
    | cons n rest' =>
      rw [insert_cons_cons] at h
      by_cases hc : c.addr < nw.addr
      · rw [if_pos hc] at h
        by_cases hn : nw.addr < n.addr
        · rw [if_pos hn] at h
          simp only [Option.some.injEq] at h
          subst h
          simp only [List.mem_cons] at hx ⊢
          tauto
        · rw [if_neg hn] at h
          rcases Option.map_eq_some'.mp h with ⟨r', hr', rfl⟩
          simp only [List.mem_cons] at hx
          rcases hx with h1 | hx
          · exact Or.inr (by simp [h1])
          · rcases ih nw r' hr' x hx with h1 | h2
            · exact Or.inl h1
            · simp only [List.mem_cons] at h2 ⊢
              tauto
      · rw [if_neg hc] at h
        cases h

theorem insert_inv : ∀ (l : List FreeSegment) (nw : FreeSegment)
    (r : List FreeSegment), FreeListInv l →
    (∀ s ∈ l, s.get_end ≤ nw.addr ∨ nw.get_end ≤ s.addr) →
    insert_new_segment l nw = some r → FreeListInv r := by
  intro l
  induction l with
  | nil =>
    intro nw r _ _ h
    simp only [insert_new_segment, Option.some.injEq] at h
    subst h
    simp [FreeListInv]
  | cons c rest ih =>
    intro nw r hinv hdis h
    have hcnw : c.addr < nw.addr → c.get_end ≤ nw.addr := by
      intro _
      rcases hdis c (by simp) with h1 | h2
      · exact h1
      · have := nw.addr_lt_get_end
        omega
    unfold FreeListInv at hinv ⊢
    rw [List.pairwise_cons] at hinv
    obtain ⟨hca, hrest⟩ := hinv
    cases rest with
    | nil =>
      rw [insert_cons_nil] at h
      by_cases hc : c.addr < nw.addr
      · rw [if_pos hc] at h
        simp only [Option.some.injEq] at h
        subst h
        simp [List.pairwise_cons, hcnw hc]
      · rw [if_neg hc] at h
        cases h
    | cons n rest' =>
      rw [insert_cons_cons] at h
      by_cases hc : c.addr < nw.addr
      · rw [if_pos hc] at h
        rw [List.pairwise_cons] at hrest
        obtain ⟨hna, hrest'⟩ := hrest
        by_cases hn : nw.addr < n.addr
        · rw [if_pos hn] at h
          simp only [Option.some.injEq] at h
          subst h
          have hnwn : nw.get_end ≤ n.addr := by
            rcases hdis n (by simp) with h1 | h2
            · have := n.addr_lt_get_end
              omega
            · exact h2
          rw [List.pairwise_cons]
          constructor
          · intro x hx
            rcases List.mem_cons.mp hx with rfl | hx'
            · exact hcnw hc
            · exact hca x hx'
          · rw [List.pairwise_cons]
            constructor
            · intro x hx
              rcases List.mem_cons.mp hx with rfl | hx'
              · exact hnwn
              · have := n.addr_lt_get_end
                have := hna x hx'
                omega
            · rw [List.pairwise_cons]
              exact ⟨hna, hrest'⟩
        · rw [if_neg hn] at h
          rcases Option.map_eq_some'.mp h with ⟨r', hr', rfl⟩
          have hinv' : List.Pairwise (fun a b => a.get_end ≤ b.addr) r' := by
            apply ih nw r' _ _ hr'
            · unfold FreeListInv
              rw [List.pairwise_cons]
              exact ⟨hna, hrest'⟩
            · intro s hs
              exact hdis s (by simp [hs])
          rw [List.pairwise_cons]
          refine ⟨?_, hinv'⟩
          intro x hx
          rcases insert_mem _ nw r' hr' x hx with rfl | hx'
          · exact hcnw hc
          · rcases List.mem_cons.mp hx' with rfl | hx''
            · exact hca x (by simp)
            · exact hca x (by simp [hx''])
      · rw [if_neg hc] at h
        cases h

theorem insert_splice : ∀ (l₁ l₂ : List FreeSegment) (nw : FreeSegment),
    l₁ ≠ [] → (∀ a ∈ l₁, a.addr < nw.addr) →
    (l₂ = [] ∨ ∃ b t, l₂ = b :: t ∧ nw.addr < b.addr) →
    insert_new_segment (l₁ ++ l₂) nw = some (l₁ ++ nw :: l₂) := by
  intro l₁
  induction l₁ with
  | nil => intro l₂ nw h; exact absurd rfl h
  | cons a l₁' ih =>
    intro l₂ nw _ hlt hl₂
    have ha : a.addr < nw.addr := hlt a (by simp)
    cases l₁' with
    | nil =>
      rcases hl₂ with rfl | ⟨b, t, rfl, hb⟩
      · simp only [List.append_nil, List.singleton_append]
        rw [insert_cons_nil, if_pos ha]
      · simp only [List.singleton_append, List.cons_append, List.nil_append]
        rw [insert_cons_cons, if_pos ha, if_pos hb]
    | cons a' l₁'' =>
      have ha' : a'.addr < nw.addr := hlt a' (by simp)
      have hrec : insert_new_segment (a' :: (l₁'' ++ l₂)) nw =
          some (a' :: (l₁'' ++ nw :: l₂)) := by
        have := ih l₂ nw (by simp)
          (fun x hx => hlt x (by simp only [List.mem_cons] at hx ⊢; tauto)) hl₂
        simpa using this
      rw [List.cons_append, List.cons_append, insert_cons_cons,
        if_pos ha, if_neg (by omega), hrec]
      simp

theorem cleanFrom_head_addr : ∀ (l : List FreeSegment) (a : FreeSegment),
    ∃ s t, cleanFrom a l = ⟨a.addr, s⟩ :: t := by
  intro l
  induction l with
  | nil => intro a; exact ⟨a.size, [], rfl⟩
  | cons b rest ih =>
    intro a
    by_cases h : a.get_end = b.addr
    · simp only [cleanFrom, if_pos h]
      exact ih _
    · simp only [cleanFrom, if_neg h]
      exact ⟨a.size, cleanFrom b rest, rfl⟩

theorem cleanFrom_chain' : ∀ (l : List FreeSegment) (a : FreeSegment),
    List.Chain' (fun x y => x.get_end ≠ y.addr) (cleanFrom a l) := by
  intro l
  induction l with
  | nil => intro a; simp [cleanFrom]
  | cons b rest ih =>
    intro a
    by_cases h : a.get_end = b.addr
    · simp only [cleanFrom, if_pos h]
      exact ih _
    · simp only [cleanFrom, if_neg h]
      obtain ⟨s, t, he⟩ := cleanFrom_head_addr rest b
      rw [he, List.chain'_cons]
      exact ⟨h, he ▸ ih b⟩

theorem cleanFrom_mem_addr : ∀ (l : List FreeSegment) (a x : FreeSegment),
    x ∈ cleanFrom a l → x.addr = a.addr ∨ ∃ y ∈ l, x.addr = y.addr := by
  intro l
  induction l with
  | nil =>
    intro a x hx
    simp only [cleanFrom, List.mem_singleton] at hx
    subst hx
    exact Or.inl rfl
  | cons b rest ih =>
    intro a x hx
    by_cases h : a.get_end = b.addr
    · simp only [cleanFrom, if_pos h] at hx
      rcases ih _ x hx with h1 | ⟨y, hy, h2⟩
      · exact Or.inl h1
      · exact Or.inr ⟨y, by simp [hy], h2⟩
    · simp only [cleanFrom, if_neg h, List.mem_cons] at hx
      rcases hx with rfl | hx
      · exact Or.inl rfl
      · rcases ih b x hx with h1 | ⟨y, hy, h2⟩
        · exact Or.inr ⟨b, by simp, h1⟩
        · exact Or.inr ⟨y, by simp [hy], h2⟩

theorem cleanFrom_inv : ∀ (l : List FreeSegment) (a : FreeSegment),
    FreeListInv (a :: l) → FreeListInv (cleanFrom a l) := by
  intro l
  induction l with
  | nil =>
    intro a _
    simp [cleanFrom, FreeListInv]
  | cons b rest ih =>
    intro a hinv
    unfold FreeListInv at hinv ⊢
    rw [List.pairwise_cons] at hinv
    obtain ⟨ha, hbrest⟩ := hinv
    rw [List.pairwise_cons] at hbrest
    obtain ⟨hb, hrest⟩ := hbrest
    by_cases h : a.get_end = b.addr
    · simp only [cleanFrom, if_pos h]
      apply ih
      unfold FreeListInv
      rw [List.pairwise_cons]
      constructor
      · intro x hx
        have hbx := hb x hx
        unfold FreeSegment.get_end headerSize at h hbx ⊢
        simp only at h hbx ⊢
        omega
      · exact hrest
    · simp only [cleanFrom, if_neg h]
      rw [List.pairwise_cons]
      constructor
      · intro x hx
        rcases cleanFrom_mem_addr rest b x hx with h1 | ⟨y, hy, h2⟩
        · rw [h1]; exact ha b (by simp)
        · rw [h2]; exact ha y (by simp [hy])
      · apply ih
        unfold FreeListInv
        rw [List.pairwise_cons]
        exact ⟨hb, hrest⟩

theorem clean_inv (l : List FreeSegment) (h : FreeListInv l) :
    FreeListInv (clean_free_segment_list l) := by
  cases l with
  | nil => simpa [clean_free_segment_list] using h
  | cons a rest => exact cleanFrom_inv rest a h

theorem find_aux_mem (size align : Nat) : ∀ (l : List FreeSegment)
    (acc : Option FreeSegment) (x : FreeSegment),
    l.foldl (fun last cursor =>
      if find_fit cursor size align then some cursor else last) acc = some x →
    x ∈ l ∨ acc = some x := by
  intro l
  induction l with
  | nil => intro acc x h; exact Or.inr h
  | cons c rest ih =>
    intro acc x h
    simp only [List.foldl_cons] at h
    rcases ih _ x h with h1 | h2
    · exact Or.inl (by simp [h1])
    · by_cases hp : find_fit c size align
      · rw [if_pos hp] at h2
        injection h2 with h3
        exact Or.inl (by rw [← h3]; simp)
      · rw [if_neg hp] at h2
        exact Or.inr h2

theorem find_mem {l : List FreeSegment} {size align : Nat} {seg : FreeSegment}
    (h : find_last_big_enough l size align = some seg) : seg ∈ l := by
  unfold find_last_big_enough at h
  rcases find_aux_mem size align l none seg h with h1 | h2
  · exact h1
  · cases h2
example : clean_free_segment_list [⟨0, 8⟩, ⟨24, 8⟩] = [⟨0, 32⟩] := by decide
example : find_last_big_enough [⟨1000, 0⟩] 8 1 = some ⟨1000, 0⟩ := by decide
example : specFits ⟨1000, 0⟩ 8 1 = false := by decide
example : insert_new_segment [⟨0, 8⟩, ⟨100, 8⟩] ⟨50, 4⟩ =
    some [⟨0, 8⟩, ⟨50, 4⟩, ⟨100, 8⟩] := by decide
example : alloc [⟨1000, 100⟩] 8 1 =
    some ⟨1092, 1100, ⟨8, 0⟩, [⟨1000, 76⟩]⟩ := by decide
example : allocThenFree [⟨0, 1048576⟩] 64 8 = some [⟨0, 1048576⟩] := by decide

/-- C1 (code bug): the spec's placement rule says a segment fits exactly
when the hypothesized tail-allocation carve start does not fall before the
segment's own start, but the source's test `segment_start <
(*cursor).get_end()` compares the carve start against the segment's end:
on a free list holding one segment of size 0 at address 1000, an 8-byte
request is "fitted" into that segment even though the carve start (992)
lies before the segment start (1000), where the spec's rule rejects it. -/
theorem find_fit_contradicts_spec_rule :
    find_last_big_enough [(⟨1000, 0⟩ : FreeSegment)] 8 1 = some ⟨1000, 0⟩ ∧
    specFits ⟨1000, 0⟩ 8 1 = false := by decide

/-- C2 (code bug): with the free list holding a single segment of size 0,
a request of 8 bytes is strictly larger than the largest available
segment, yet `alloc` does not take the OutOfMemory path: it returns a
pointer (carving past the segment's start). -/
theorem alloc_oversize_returns_pointer :
    largestFreeSize [(⟨1000, 0⟩ : FreeSegment)] < 8 ∧
    (alloc [(⟨1000, 0⟩ : FreeSegment)] 8 1).isSome = true := by decide

/-- C3: for every carve whose header fits inside the segment end and every
power-of-two alignment `a`, the returned data pointer equals
`(segment end - size_of(UsedSegment) - padding) - size` with
`padding = (segment end - size_of(UsedSegment) - size) mod a`, and that
pointer is exactly `a`-aligned. -/
theorem write_used_segment_aligned (seg : FreeSegment) (size a k : Nat)
    (hA : a = 2 ^ k) (hfit : size + headerSize ≤ seg.get_end) :
    (write_used_segment seg size a).dataStart =
      seg.get_end - headerSize -
        ((seg.get_end - headerSize - size) % a) - size ∧
    (write_used_segment seg size a).dataStart % a = 0 := by
  constructor
  · rfl
  · simp only [write_used_segment]
    have hpx : (seg.get_end - headerSize - size) % a ≤
        seg.get_end - headerSize - size := Nat.mod_le _ _
    have hxa : a * ((seg.get_end - headerSize - size) / a) +
        (seg.get_end - headerSize - size) % a =
        seg.get_end - headerSize - size := Nat.div_add_mod _ a
    have hp : seg.get_end - headerSize -
          ((seg.get_end - headerSize - size) % a) - size =
        a * ((seg.get_end - headerSize - size) / a) := by
      omega
    rw [hp]
    exact Nat.mul_mod_right a _

/-- Witness for C3 at a concrete segment and request. -/
theorem write_used_segment_aligned_witness :
    (write_used_segment ⟨1000, 100⟩ 8 8).dataStart =
      FreeSegment.get_end ⟨1000, 100⟩ - headerSize -
        ((FreeSegment.get_end ⟨1000, 100⟩ - headerSize - 8) % 8) - 8 ∧
    (write_used_segment ⟨1000, 100⟩ 8 8).dataStart % 8 = 0 :=
  write_used_segment_aligned ⟨1000, 100⟩ 8 8 3 (by decide) (by decide)

/-- C5: the coalescing pass merges a node with its successor exactly when
the node's computed end equals the successor's address, producing one node
whose size is the sum of the two sizes plus one header and whose next link
is the absorbed node's next, repeating at the same position before
advancing; consequently no two consecutive nodes of the result are
address-adjacent, and freeing two adjacent blocks leaves one merged
segment. -/
theorem clean_merges_adjacent :
    (∀ (a b : FreeSegment) (rest : List FreeSegment), a.get_end = b.addr →
      clean_free_segment_list (a :: b :: rest) =
        clean_free_segment_list
          (⟨a.addr, a.size + headerSize + b.size⟩ :: rest)) ∧
    (∀ a b : FreeSegment, a.get_end = b.addr →
      clean_free_segment_list [a, b] =
        [⟨a.addr, a.size + headerSize + b.size⟩]) ∧
    (∀ l : List FreeSegment,
      List.Chain' (fun x y => x.get_end ≠ y.addr)
        (clean_free_segment_list l)) := by
  refine ⟨?_, ?_, ?_⟩
  · intro a b rest h
    simp [clean_free_segment_list, cleanFrom, if_pos h]
  · intro a b h
    simp [clean_free_segment_list, cleanFrom, if_pos h]
  · intro l
    cases l with
    | nil => simp [clean_free_segment_list]
    | cons a rest => exact cleanFrom_chain' rest a

/-- Witness for C5: freeing two directly adjacent 8-byte regions leaves a
single merged segment. -/
theorem clean_merges_adjacent_witness :
    clean_free_segment_list [⟨0, 8⟩, ⟨24, 8⟩] = [⟨0, 32⟩] :=
  clean_merges_adjacent.2.1 ⟨0, 8⟩ ⟨24, 8⟩ (by decide)

/-- C7: `dealloc` reads the `UsedSegment` header stored at `pointer + size`
and hands the insert-and-coalesce phase a `FreeSegment` written at the
pointer address whose recorded size is `used.size + used.align_padding`;
the header's own `headerSize` bytes are exactly what is missing from that
size compared with the whole span the allocation consumed. -/
theorem dealloc_reported_size (usedAt : Nat → UsedSegment)
    (l : List FreeSegment) (ptr size : Nat) :
    ∃ newFree : FreeSegment,
      dealloc usedAt l ptr size =
        (insert_new_segment l newFree).map clean_free_segment_list ∧
      newFree.addr = ptr ∧
      newFree.size =
        (usedAt (ptr + size)).size + (usedAt (ptr + size)).align_padding ∧
      newFree.size + headerSize = (usedAt (ptr + size)).whole_size := by
  refine ⟨⟨ptr, (usedAt (ptr + size)).size + (usedAt (ptr + size)).align_padding⟩,
    rfl, rfl, rfl, ?_⟩
  simp only [UsedSegment.whole_size]
  omega

/-- C4: the freed block is spliced after the first node (from the head)
whose next link is null or whose next node starts at a higher address,
preserving ascending order; when no such position exists (only possible
for an empty list) the new node becomes the stored head; a visited node at
or above the new block's address fails the `cursor < new_segment` assert —
a fatal invariant violation, never silently ignored. -/
theorem insert_new_segment_spec :
    (∀ nw : FreeSegment, insert_new_segment [] nw = some [nw]) ∧
    (∀ (l₁ l₂ : List FreeSegment) (nw : FreeSegment),
      l₁ ≠ [] → (∀ a ∈ l₁, a.addr < nw.addr) →
      (l₂ = [] ∨ ∃ b t, l₂ = b :: t ∧ nw.addr < b.addr) →
      insert_new_segment (l₁ ++ l₂) nw = some (l₁ ++ nw :: l₂)) ∧
    (∀ (c : FreeSegment) (rest : List FreeSegment) (nw : FreeSegment),
      ¬ c.addr < nw.addr → insert_new_segment (c :: rest) nw = none) := by
  refine ⟨fun nw => rfl, insert_splice, ?_⟩
  intro c rest nw hc
  cases rest with
  | nil => rw [insert_cons_nil, if_neg hc]
  | cons n rest' => rw [insert_cons_cons, if_neg hc]

/-- Witness for C4: splicing a freed block between two existing nodes. -/
theorem insert_new_segment_spec_witness :
    insert_new_segment ([⟨0, 8⟩] ++ [⟨100, 8⟩]) ⟨50, 4⟩ =
      some ([⟨0, 8⟩] ++ ⟨50, 4⟩ :: [⟨100, 8⟩]) :=
  insert_new_segment_spec.2.1 [⟨0, 8⟩] [⟨100, 8⟩] ⟨50, 4⟩ (by decide)
    (by decide) (Or.inr ⟨⟨100, 8⟩, [], rfl, by decide⟩)

/-- C8 (amended): in the region loop a region is accepted exactly when its
kind is usable and its end address exceeds kernel_start + kernel_len (the
source's collision test `region.end <= kernel_start + kernel_len`, which
is not an interval-overlap test), and every accepted region contributes,
in input order at the tail of the list, a FreeSegment header at
start + offset with size (end - start) - size_of(header). -/
theorem buildSegments_filter_map (regions : List MemoryRegion)
    (ks kl off : Nat) :
    buildSegments regions ks kl off =
      (regions.filter fun r =>
        decide (r.kind = MemoryRegionKind.Usable) &&
          decide (ks + kl < r.end_)).map
        fun r => ⟨r.start + off, (r.end_ - r.start) - headerSize⟩ := by
  induction regions with
  | nil => rfl
  | cons r rest ih =>
    by_cases hk : r.kind = MemoryRegionKind.Usable
    · by_cases he : r.end_ ≤ ks + kl
      · have : ¬ ks + kl < r.end_ := by omega
        simp [buildSegments, hk, he, ih, List.filter_cons, this]
      · have : ks + kl < r.end_ := by omega
        simp [buildSegments, hk, he, ih, List.filter_cons, this]
    · simp [buildSegments, hk, ih, List.filter_cons]

/-- C8 counterexample to the claim as stated: the usable region [150, 250)
overlaps the kernel's reserved range [100, 200), so the claimed rule skips
it, but the code accepts it (250 > 200) and writes a FreeSegment for
it. -/
theorem overlapping_region_accepted :
    specSkipsRegion ⟨150, 250, MemoryRegionKind.Usable⟩ 100 100 = true ∧
    buildSegments [⟨150, 250, MemoryRegionKind.Usable⟩] 100 100 0 =
      [⟨150, 84⟩] := by decide

/-- C9: a bootstrap that completes yields a free list satisfying the shape
invariant, and every successful insert-plus-coalesce sequence applied to
an invariant-satisfying list and a freed block whose byte range is
disjoint from it preserves the invariant; the invariant gives strict
ascending address order with pairwise disjoint byte ranges (null
termination and acyclicity are structural in the list model). -/
theorem free_list_invariant :
    (∀ (regions : List MemoryRegion) (ks kl off : Nat) (l : List FreeSegment),
      init regions ks kl off = some l → FreeListInv l) ∧
    (∀ (l : List FreeSegment) (nw : FreeSegment) (r : List FreeSegment),
      FreeListInv l →
      (∀ s ∈ l, s.get_end ≤ nw.addr ∨ nw.get_end ≤ s.addr) →
      insert_new_segment l nw = some r →
      FreeListInv (clean_free_segment_list r)) ∧
    (∀ l : List FreeSegment, FreeListInv l →
      l.Pairwise fun a b => a.addr < b.addr ∧ a.get_end ≤ b.addr) := by
  refine ⟨?_, ?_, ?_⟩
  · intro regions ks kl off l h
    unfold init at h
    split at h
    · simp only [Option.some.injEq] at h
      subst h
      simp [FreeListInv]
    · cases h
  · intro l nw r hinv hdis h
    exact clean_inv r (insert_inv l nw r hinv hdis h)
  · intro l hinv
    unfold FreeListInv at hinv
    refine hinv.imp ?_
    intro a b hab
    exact ⟨lt_of_lt_of_le a.addr_lt_get_end hab, hab⟩

/-- Witness for C9: inserting a disjoint freed block between two nodes and
coalescing preserves the invariant. -/
theorem free_list_invariant_witness :
    FreeListInv (clean_free_segment_list [⟨0, 8⟩, ⟨50, 4⟩, ⟨100, 8⟩]) :=
  free_list_invariant.2.1 [⟨0, 8⟩, ⟨100, 8⟩] ⟨50, 4⟩
    [⟨0, 8⟩, ⟨50, 4⟩, ⟨100, 8⟩] (by decide) (by decide) (by decide)

/-- C6: from a pool whose free list is one FreeSegment with N free bytes,
allocating S bytes at power-of-two alignment A (with room for padding and
header) and immediately freeing the returned pointer yields a pool whose
total free bytes are at least N - headerSize; the coalescing merge in fact
restores exactly N here. -/
theorem alloc_free_roundtrip (h N S A k : Nat) (hA : A = 2 ^ k)
    (hfit : S + A + headerSize ≤ N) (hW : h + headerSize + N < W) :
    ∃ r, allocThenFree [⟨h, N⟩] S A = some r ∧
      N - headerSize ≤ totalFree r := by
  have hh : headerSize = 16 := rfl
  have hA0 : 0 < A := hA ▸ pow_pos (by norm_num) k
  have hpF : (h + N - S) % A < A := Nat.mod_lt _ hA0
  have hpF2 : (h + headerSize + N - S) % A < A := Nat.mod_lt _ hA0
  have hE : (⟨h, N⟩ : FreeSegment).get_end = h + headerSize + N := rfl
  have hfit1 : find_fit ⟨h, N⟩ S A = true := by
    have h1 : wsub (h + headerSize + N) S = h + headerSize + N - S :=
      wsub_eq_sub (by omega) hW
    have h2 : wsub (h + headerSize + N - S)
        ((h + headerSize + N - S) % A + headerSize) =
        h + headerSize + N - S -
          ((h + headerSize + N - S) % A + headerSize) :=
      wsub_eq_sub (by omega) (by omega)
    unfold find_fit
    simp only [hE, Nat.mod_eq_of_lt hW, h1, h2, decide_eq_true_eq]
    omega
  have hfind : find_last_big_enough [⟨h, N⟩] S A = some ⟨h, N⟩ := by
    unfold find_last_big_enough
    simp [hfit1]
  set pad := (h + N - S) % A with hpad
  have hwrite : write_used_segment ⟨h, N⟩ S A =
      ⟨h + N - pad - S, h + N - pad, ⟨S, pad⟩,
        ⟨h, N - (S + headerSize + pad)⟩⟩ := by
    unfold write_used_segment
    have harg : h + headerSize + N - headerSize = h + N := by omega
    simp only [hE, harg, UsedSegment.whole_size, ← hpad]
  have halloc : alloc [⟨h, N⟩] S A =
      some ⟨h + N - pad - S, h + N - pad, ⟨S, pad⟩,
        [⟨h, N - (S + headerSize + pad)⟩]⟩ := by
    unfold alloc
    rw [hfind]
    simp only [hwrite]
    simp
  refine ⟨[⟨h, N⟩], ?_, ?_⟩
  · unfold allocThenFree
    rw [halloc]
    unfold dealloc
    have hptr : h + N - pad - S + S = h + N - pad := by omega
    simp only [hptr, if_pos rfl, if_true]
    rw [insert_cons_nil, if_pos (by dsimp only; omega)]
    simp only [Option.map_some']
    have hadj : (⟨h, N - (S + headerSize + pad)⟩ :
        FreeSegment).get_end = h + N - pad - S := by
      unfold FreeSegment.get_end
      dsimp only
      omega
    simp only [clean_free_segment_list, cleanFrom, hadj, if_pos rfl,
      if_true, Option.some.injEq]
    have hsum : N - (S + headerSize + pad) + headerSize + (S + pad) = N := by
      omega
    simp only [List.cons.injEq, FreeSegment.mk.injEq, and_true, true_and]
    omega
  · simp only [totalFree, List.map_cons, List.map_nil, List.sum_cons,
      List.sum_nil]
    omega

/-- Witness for C6: a 1 MiB pool, a 64-byte allocation at alignment 8. -/
theorem alloc_free_roundtrip_witness :
    ∃ r, allocThenFree [⟨0, 1048576⟩] 64 8 = some r ∧
      1048576 - headerSize ≤ totalFree r :=
  alloc_free_roundtrip 0 1048576 64 8 3 (by decide) (by decide) (by decide)

/-- C10: a successful allocation mutates only the chosen free segment's
size field, decreasing it by the whole consumed span (data + header +
padding); every other node is unchanged at its position, the address
sequence — hence every next link and the stored list head — is unchanged,
and the placement scan performs no writes (it is a pure function of the
list in this model). -/
theorem alloc_frame (l : List FreeSegment) (S A : Nat) (out : AllocResult)
    (halloc : alloc l S A = some out) :
    ∃ seg, seg ∈ l ∧ find_last_big_enough l S A = some seg ∧
      out.segs.length = l.length ∧
      out.segs.map FreeSegment.addr = l.map FreeSegment.addr ∧
      out.used.whole_size = S + headerSize + out.used.align_padding ∧
      (∀ i : Fin l.length, ∀ hi : i.val < out.segs.length,
        (l.get i).addr ≠ seg.addr → out.segs.get ⟨i.val, hi⟩ = l.get i) ∧
      (∀ i : Fin l.length, ∀ hi : i.val < out.segs.length,
        (l.get i).addr = seg.addr →
          out.segs.get ⟨i.val, hi⟩ =
            ⟨seg.addr, seg.size - out.used.whole_size⟩) := by
  unfold alloc at halloc
  cases hfind : find_last_big_enough l S A with
  | none => rw [hfind] at halloc; cases halloc
  | some seg =>
    rw [hfind] at halloc
    simp only [Option.some.injEq] at halloc
    subst halloc
    have hshrunk : (write_used_segment seg S A).shrunk =
        ⟨seg.addr, seg.size - (write_used_segment seg S A).used.whole_size⟩ :=
      rfl
    have hused : (write_used_segment seg S A).used.whole_size =
        S + headerSize + (write_used_segment seg S A).used.align_padding :=
      rfl
    refine ⟨seg, find_mem hfind, rfl, by simp, ?_, hused, ?_, ?_⟩
    · simp only [List.map_map]
      refine List.map_congr_left ?_
      intro s _
      by_cases hs : s.addr = seg.addr
      · simp [hs, hshrunk]
      · simp [hs]
    · intro i hi hne
      simp only [List.get_eq_getElem] at hne
      simp only [List.get_eq_getElem, List.getElem_map]
      rw [if_neg hne]
    · intro i hi heq
      simp only [List.get_eq_getElem] at heq
      simp only [List.get_eq_getElem, List.getElem_map]
      rw [if_pos heq]
      rw [hshrunk]

/-- Witness for C10 at a concrete one-segment pool. -/
theorem alloc_frame_witness :
    ∃ seg, seg ∈ [(⟨1000, 100⟩ : FreeSegment)] ∧
      find_last_big_enough [(⟨1000, 100⟩ : FreeSegment)] 8 1 = some seg ∧
      (AllocResult.segs ⟨1092, 1100, ⟨8, 0⟩, [⟨1000, 76⟩]⟩).length =
        [(⟨1000, 100⟩ : FreeSegment)].length ∧
      (AllocResult.segs ⟨1092, 1100, ⟨8, 0⟩, [⟨1000, 76⟩]⟩).map
        FreeSegment.addr =
        [(⟨1000, 100⟩ : FreeSegment)].map FreeSegment.addr ∧
      (AllocResult.used ⟨1092, 1100, ⟨8, 0⟩, [⟨1000, 76⟩]⟩).whole_size =
        8 + headerSize +
          (AllocResult.used ⟨1092, 1100, ⟨8, 0⟩, [⟨1000, 76⟩]⟩).align_padding ∧
      (∀ i : Fin [(⟨1000, 100⟩ : FreeSegment)].length,
        ∀ hi : i.val <
          (AllocResult.segs ⟨1092, 1100, ⟨8, 0⟩, [⟨1000, 76⟩]⟩).length,
        ([(⟨1000, 100⟩ : FreeSegment)].get i).addr ≠ seg.addr →
          (AllocResult.segs ⟨1092, 1100, ⟨8, 0⟩, [⟨1000, 76⟩]⟩).get
            ⟨i.val, hi⟩ = [(⟨1000, 100⟩ : FreeSegment)].get i) ∧
      (∀ i : Fin [(⟨1000, 100⟩ : FreeSegment)].length,
        ∀ hi : i.val <
          (AllocResult.segs ⟨1092, 1100, ⟨8, 0⟩, [⟨1000, 76⟩]⟩).length,
        ([(⟨1000, 100⟩ : FreeSegment)].get i).addr = seg.addr →
          (AllocResult.segs ⟨1092, 1100, ⟨8, 0⟩, [⟨1000, 76⟩]⟩).get
            ⟨i.val, hi⟩ =
            ⟨seg.addr, seg.size -
              (AllocResult.used ⟨1092, 1100, ⟨8, 0⟩, [⟨1000, 76⟩]⟩).whole_size⟩) :=
  alloc_frame [⟨1000, 100⟩] 8 1 ⟨1092, 1100, ⟨8, 0⟩, [⟨1000, 76⟩]⟩
    (by decide)
